import Mathlib

/-!
# Verification of the geometry / search pipeline of the property-search app

This file gives a shallow embedding of the algorithmic core of the
repository: the polygon-simplification helpers and the polygon branch of the
`POST` handler in `src/app/api/properties/search/route.ts`, and the
page-accumulation / staleness bookkeeping of the `MapWidget` component.

Modelling conventions:
* JavaScript numbers are modelled by `ℚ`.  All arithmetic appearing in the
  source (`+`, `-`, `*`, `/`, `**2`, `Math.abs`) is exact on the inputs used
  by the concrete theorems below, so the rational model agrees with the
  float execution there.  `Math.sqrt` is the one transcendental operation;
  it is abstracted as an explicit function parameter `sqrt : ℚ → ℚ`, and
  theorems that depend on square roots either hold for every such function
  or carry hypotheses saying that `sqrt` is exact at the arguments involved.
* Serialisation of a number into the filter string (JS template literals)
  is abstracted as a function parameter `render : ℚ → String`.
* The recursion of `douglasPeucker` is driven by an explicit depth counter
  (`fuel`).  For a nonnegative tolerance every recursive call strictly
  shortens the point list (lemma `dpAux_fuel_irrel`), so a counter equal to
  the list length never runs out and the model computes exactly what the
  source computes.  (For a negative tolerance the source itself does not
  terminate on degenerate inputs; no call site uses a negative tolerance.)
-/

namespace PropSearch

/-- `interface Point { lat: number; lng: number }` of
`src/app/api/properties/search/route.ts`. -/
structure Point where
  lat : ℚ
  lng : ℚ
deriving DecidableEq, Repr

/-- Default value used for (never exercised) out-of-range list indexing;
the source indexes arrays only at positions it has checked. -/
def origin : Point := ⟨0, 0⟩

/-- Squared Euclidean length of the segment from `a` to `b`
(the argument of `Math.sqrt` in `perpendicularDistance`). -/
def segLengthSq (a b : Point) : ℚ :=
  (b.lat - a.lat) ^ 2 + (b.lng - a.lng) ^ 2

/-- Squared Euclidean distance from `p` to `a`
(the argument of `Math.sqrt` in the degenerate branch of
`perpendicularDistance`). -/
def pointDistSq (p a : Point) : ℚ :=
  (p.lat - a.lat) ^ 2 + (p.lng - a.lng) ^ 2

/-- `perpendicularDistance(point, lineStart, lineEnd)` from the API route
(lines 32–59): if the segment is degenerate, the Euclidean distance from
`point` to `lineStart`; otherwise `2 * area / length` where `area` is the
absolute shoelace half-cross product and `length` the Euclidean segment
length.  `Math.sqrt` is abstracted by the `sqrt` parameter. -/
def perpendicularDistance (sqrt : ℚ → ℚ) (point lineStart lineEnd : Point) : ℚ :=
  if lineStart.lat = lineEnd.lat ∧ lineStart.lng = lineEnd.lng then
    sqrt (pointDistSq point lineStart)
  else
    let area := |(lineStart.lat * (lineEnd.lng - point.lng) +
        lineEnd.lat * (point.lng - lineStart.lng) +
        point.lat * (lineStart.lng - lineEnd.lng)) / 2|
    let length := sqrt (segLengthSq lineStart lineEnd)
    2 * area / length

/-- The scanning loop pattern `maxValue/maxIndex` used both by
`douglasPeucker` (max perpendicular distance, route lines 121–134) and by
the MultiPolygon largest-ring selection (route lines 497–513): fold over a
list of indices, replacing the accumulator whenever `f i` strictly exceeds
the current maximum (so the first index attaining the maximum wins). -/
def scanMax {α : Type} [LinearOrder α] (f : ℕ → α) : List ℕ → α × ℕ → α × ℕ
  | [], acc => acc
  | i :: rest, acc => scanMax f rest (if acc.1 < f i then (f i, i) else acc)

/-- Distance of `points[i]` from the segment joining `points[0]` and
`points[points.length - 1]`, as computed inside the `douglasPeucker` loop. -/
def dpDist (sqrt : ℚ → ℚ) (points : List Point) (i : ℕ) : ℚ :=
  perpendicularDistance sqrt (points.getD i origin) (points.getD 0 origin)
    (points.getD (points.length - 1) origin)

/-- The `maxDistance` / `maxIndex` loop of `douglasPeucker`
(route lines 121–134): interior indices `1 … points.length - 2`,
accumulator starting at `(0, 0)`. -/
def dpScan (sqrt : ℚ → ℚ) (points : List Point) : ℚ × ℕ :=
  scanMax (dpDist sqrt points) (List.range' 1 (points.length - 2)) (0, 0)

/-- `douglasPeucker(points, tolerance)` (route lines 115–148), with the
call stack made explicit as a `fuel` counter.  `points.slice(0, maxIndex+1)`
is `take (maxIndex+1)`, `points.slice(maxIndex)` is `drop maxIndex`, and
`firstHalf.slice(0, -1) ++ secondHalf` is `dropLast ++`. -/
def dpAux (sqrt : ℚ → ℚ) (tolerance : ℚ) : ℕ → List Point → List Point
  | 0, points => points
  | fuel + 1, points =>
    if points.length ≤ 2 then points
    else
      let r := dpScan sqrt points
      if tolerance < r.1 then
        (dpAux sqrt tolerance fuel (points.take (r.2 + 1))).dropLast ++
          dpAux sqrt tolerance fuel (points.drop r.2)
      else [points.getD 0 origin, points.getD (points.length - 1) origin]

/-- `douglasPeucker` run with enough fuel for its own input (the source
recursion always terminates for the nonnegative tolerances it is called
with, with stack depth below the list length). -/
def douglasPeucker (sqrt : ℚ → ℚ) (tolerance : ℚ) (points : List Point) : List Point :=
  dpAux sqrt tolerance points.length points

/-- The flat-array-to-points conversion at the top of `simplifyPolygon`
(route lines 73–76): `[lat1, lng1, lat2, lng2, …] ↦ [{lat1,lng1}, …]`.
A dangling odd element is dropped (the source would build a point with an
undefined `lng`; no caller passes an odd-length array). -/
def toPoints : List ℚ → List Point
  | lat :: lng :: rest => ⟨lat, lng⟩ :: toPoints rest
  | _ => []

/-- The points-to-flat-array conversion at the bottom of `simplifyPolygon`
(route lines 104–107): `result.push(point.lat, point.lng)`. -/
def flattenPoints : List Point → List ℚ
  | [] => []
  | p :: rest => p.lat :: p.lng :: flattenPoints rest

/-- `simplifyPolygon(coordinates, tolerance)` (route lines 67–110):
arrays of fewer than 3 points are returned unchanged; a closed ring has its
closing duplicate removed before the core algorithm and re-appended after;
if the simplification drops below 3 points the original array is returned. -/
def simplifyPolygon (sqrt : ℚ → ℚ) (tolerance : ℚ) (coordinates : List ℚ) : List ℚ :=
  if coordinates.length < 6 then coordinates
  else
    let points := toPoints coordinates
    let isClosed := points.getD 0 origin = points.getD (points.length - 1) origin
    let processPoints := if isClosed then points.dropLast else points
    let simplified := douglasPeucker sqrt tolerance processPoints
    if simplified.length < 3 then coordinates
    else
      let simplified2 :=
        if isClosed then simplified ++ [simplified.getD 0 origin] else simplified
      flattenPoints simplified2

/-- The closing step of the `POST` polygon path (route lines 611–619):
if the first flat pair differs from the last flat pair, push a copy of the
first pair.  Runs after the `length ≥ 6` validation. -/
def closeRing (cs : List ℚ) : List ℚ :=
  if cs.getD 0 0 = cs.getD (cs.length - 2) 0 ∧ cs.getD 1 0 = cs.getD (cs.length - 1) 0
  then cs
  else cs ++ [cs.getD 0 0, cs.getD 1 0]

/-- The polygon filter serialisation
`` `_geoloc:(${searchCoordinates.join(", ")})` `` (route line 626), with
number formatting abstracted by `render`. -/
def buildPolygonFilter (render : ℚ → String) (cs : List ℚ) : String :=
  "_geoloc:(" ++ String.intercalate ", " (cs.map render) ++ ")"

/-- The tolerance-doubling `while` loop of the route (lines 629–642):
while the filter text exceeds 3900 characters and the tolerance is at most
0.01, simplify at the current tolerance, rebuild the filter, double the
tolerance.  The loop runs at most 7 times (tolerance `2^k/10000` exceeds
`1/100` from `k = 7` on), so a structural counter of 100 never runs out. -/
def polygonBudgetLoop (sqrt : ℚ → ℚ) (render : ℚ → String) :
    ℕ → ℚ → List ℚ → List ℚ
  | 0, _, cs => cs
  | fuel + 1, tolerance, cs =>
    if 3900 < (buildPolygonFilter render cs).length ∧ tolerance ≤ 1 / 100 then
      polygonBudgetLoop sqrt render fuel (tolerance * 2) (simplifyPolygon sqrt tolerance cs)
    else cs

/-- The three ways the polygon branch of the `POST` handler can end:
a search request sent to the index with the given filter text
(route lines 677–725), the explicit sample-data degraded response with
`usingSampleData: true` for an oversized filter (route lines 654–675), or
the 400 rejection of invalid coordinates (route lines 598–609). -/
inductive PolygonSearchOutcome where
  | sendToIndex (filter : String)
  | sampleFallback
  | invalidCoordinates
deriving DecidableEq

/-- The polygon path of the `POST` handler (route lines 597–725): validate,
close the ring, run the budget loop from tolerance 0.0001, and either send
the filter to the index or return the degraded sample-data response. -/
def routePolygonDecision (sqrt : ℚ → ℚ) (render : ℚ → String) (coords : List ℚ) :
    PolygonSearchOutcome :=
  if coords.length < 6 then .invalidCoordinates
  else
    let cs := closeRing coords
    let final := polygonBudgetLoop sqrt render 100 (1 / 10000) cs
    let filter := buildPolygonFilter render final
    if 3900 < filter.length then .sampleFallback
    else .sendToIndex filter

/-- The Point-radius branch of the `POST` handler (route lines 394–402):
`const searchRadius = radius || 3000` (JavaScript falsiness: an absent or
zero radius falls back to 3000; any other number, including a negative one,
is kept), then `radiusKm = searchRadius / 1000` and
`` `_geoloc:(${lat}, ${lng}, ${radiusKm} km)` ``. -/
def buildRadiusFilter (render : ℚ → String) (lat lng : ℚ) (radius : Option ℚ) : String :=
  let searchRadius : ℚ :=
    match radius with
    | none => 3000
    | some r => if r = 0 then 3000 else r
  let radiusKm := searchRadius / 1000
  "_geoloc:(" ++ render lat ++ ", " ++ render lng ++ ", " ++ render radiusKm ++ " km)"

/-- `pointCount` of one polygon of a MultiPolygon
(`coordinates[i][0].length`, route line 507).  An entry failing the
source's array/nonemptiness guards is skipped by the loop; since a count
of `0` can never strictly exceed the running maximum (which starts at `0`),
giving such entries count `0` is behaviourally identical. -/
def polyCount (poly : List (List (ℚ × ℚ))) : ℕ :=
  match poly with
  | [] => 0
  | ring0 :: _ => ring0.length

/-- The `largestPolygonIndex` selection loop for MultiPolygon geometries
(route lines 497–513): scan polygons in index order, keeping the first
index whose outer-ring point count strictly exceeds the running maximum. -/
def largestPolygonIndex (polys : List (List (List (ℚ × ℚ)))) : ℕ :=
  (scanMax (fun i => polyCount (polys.getD i [])) (List.range' 0 polys.length) (0, 0)).2

/-- The per-point axis swap of the extraction loops (route lines 484–487,
521–524): a stored GeoJSON position `[lng, lat]` (modelled as the pair
`(lng, lat)`) is pushed as `lat, lng`. -/
def convertRing (ring : List (ℚ × ℚ)) : List ℚ :=
  ring.flatMap (fun p => [p.2, p.1])

/-- MultiPolygon ring extraction (route lines 491–527): select the outer
ring of the polygon with the largest point count and convert it to flat
`lat, lng` order.  A missing or empty outer ring yields the empty list,
exactly as the source's guarded loop pushes nothing. -/
def extractMultiPolygonRing (polys : List (List (List (ℚ × ℚ)))) : List ℚ :=
  convertRing ((polys.getD (largestPolygonIndex polys) []).headD [])

/-- A property document as handled by `MapWidget.fetchProperties`: an
optional `id`, an optional `document_id`, and opaque display fields.
`none` models an absent (`undefined`) field and `some ""` an empty string,
the two falsy cases the identifier expression distinguishes. -/
structure PropertyDoc where
  id : Option String
  document_id : Option String
  fields : List (String × String)
deriving DecidableEq, Repr

/-- The identifier expression `p.id || p.document_id` used for
deduplication (MapWidget, `fetchProperties` append branch): `id` when it is
present and non-empty (truthy), otherwise `document_id`. -/
def docKey (p : PropertyDoc) : Option String :=
  match p.id with
  | some s => if s = "" then p.document_id else some s
  | none => p.document_id

/-- The `setProperties` updater for pages `k > 1` (MapWidget lines
2582–2600): collect the keys of the accumulated documents, drop every
incoming document whose key is already present, and append the rest. -/
def appendPage (prev incoming : List PropertyDoc) : List PropertyDoc :=
  let existingIds := prev.map docKey
  prev ++ incoming.filter (fun p => !existingIds.contains (docKey p))

/-- `const PAGE_SIZE = 250` of `MapWidget`. -/
def PAGE_SIZE : ℕ := 250

/-- The `MapWidget` state touched by a property-search response: the
accumulated documents, the reported total, the pagination bookkeeping, the
two loading flags, and the always-current search-id ref. -/
structure WidgetState where
  properties : List PropertyDoc
  totalHits : ℕ
  hasMoreResults : Bool
  currentPage : ℕ
  isLoadingProperties : Bool
  loadingMore : Bool
  currentSearchIdRef : String
deriving DecidableEq, Repr

/-- The values a `fetchProperties` invocation captured when it started:
`currentSearchId` (a copy of the closure's `searchId`), the page number,
the `searchId` echoed in the response body, and the response payload. -/
structure ResponseCtx where
  capturedSearchId : String
  page : ℕ
  respSearchId : Option String
  dataProperties : List PropertyDoc
  dataCount : ℕ
deriving DecidableEq, Repr

/-- Processing of one successful polygon-search response by
`fetchProperties` (MapWidget lines 2554–2676).  The outer guard in the
source is `currentSearchId === searchId && currentSearchId ===
currentSearchIdRef.current`; inside one invocation `currentSearchId` is a
copy of the closure's `searchId`, so the first conjunct compares the
captured id with itself and only the ref comparison is effective.  The
`finally` block's guard `currentSearchId === searchId` (line 2669,
commented "Only update loading state if this search is still current")
compares the same two copies, hence always passes; both vacuous
comparisons are kept verbatim as `r.capturedSearchId = r.capturedSearchId`. -/
def processResponse (s : WidgetState) (r : ResponseCtx) : WidgetState :=
  let s1 :=
    if r.capturedSearchId = r.capturedSearchId ∧ r.capturedSearchId = s.currentSearchIdRef then
      if (match r.respSearchId with
          | some rid => rid != r.capturedSearchId
          | none => false) then s
      else
        let props :=
          if r.page = 1 then r.dataProperties
          else appendPage s.properties r.dataProperties
        { s with properties := props
                 totalHits := r.dataCount
                 hasMoreResults := decide (r.page * PAGE_SIZE < r.dataCount)
                 currentPage := r.page }
    else s
  if r.capturedSearchId = r.capturedSearchId then
    if r.page = 1 then { s1 with isLoadingProperties := false }
    else { s1 with loadingMore := false }
  else s1

/-! ## List helpers -/

theorem head?_dropLast {α : Type} (l : List α) (h : 2 ≤ l.length) :
    l.dropLast.head? = l.head? := by
  match l with
  | a :: b :: t => rfl

theorem head?_take {α : Type} (l : List α) (n : ℕ) (h : 0 < n) :
    (l.take n).head? = l.head? := by
  cases l with
  | nil => simp
  | cons a t =>
    cases n with
    | zero => omega
    | succ m => rfl

theorem head?_append_left {α : Type} (l₁ l₂ : List α) (h : l₁ ≠ []) :
    (l₁ ++ l₂).head? = l₁.head? := by
  cases l₁ with
  | nil => exact absurd rfl h
  | cons a t => rfl

theorem head?_eq_getD {α : Type} (l : List α) (d : α) (h : l ≠ []) :
    l.head? = some (l.getD 0 d) := by
  cases l with
  | nil => exact absurd rfl h
  | cons a t => rfl

theorem getLast?_eq_getD {α : Type} (l : List α) (d : α) (h : l ≠ []) :
    l.getLast? = some (l.getD (l.length - 1) d) := by
  rw [List.getLast?_eq_getElem?, List.getD_eq_getElem?_getD]
  have hl : 0 < l.length := List.length_pos.2 h
  have : l.length - 1 < l.length := by omega
  rw [List.getElem?_eq_getElem this]
  rfl

theorem getLast?_append_right {α : Type} (l₁ l₂ : List α) (h : l₂ ≠ []) :
    (l₁ ++ l₂).getLast? = l₂.getLast? := by
  rw [List.getLast?_eq_getElem?, List.getLast?_eq_getElem?, List.length_append]
  have hl : 0 < l₂.length := List.length_pos.2 h
  rw [List.getElem?_append_right (by omega : l₁.length ≤ l₁.length + l₂.length - 1)]
  congr 1
  omega

theorem getLast?_drop {α : Type} (l : List α) (n : ℕ) (h : n < l.length) :
    (l.drop n).getLast? = l.getLast? := by
  rw [List.getLast?_eq_getElem?, List.getLast?_eq_getElem?, List.getElem?_drop,
    List.length_drop]
  congr 1
  omega

/-! ## The scanning loop: maximum value, first maximising index -/

/-- Full characterisation of `scanMax` over an index interval: the result
dominates the accumulator and every scanned value, and either no update
happened (the accumulator is returned) or the returned index is the first
index of the interval attaining the returned maximum, which strictly
exceeds the initial accumulator value and every value before it. -/
theorem scanMax_cons {α : Type} [LinearOrder α] (f : ℕ → α) (i : ℕ) (rest : List ℕ)
    (acc : α × ℕ) :
    scanMax f (i :: rest) acc = scanMax f rest (if acc.1 < f i then (f i, i) else acc) := rfl

theorem scanMax_range'_spec {α : Type} [LinearOrder α] (f : ℕ → α) :
    ∀ (n s : ℕ) (acc : α × ℕ),
      acc.1 ≤ (scanMax f (List.range' s n) acc).1
      ∧ (∀ i, s ≤ i → i < s + n → f i ≤ (scanMax f (List.range' s n) acc).1)
      ∧ (scanMax f (List.range' s n) acc = acc
         ∨ (s ≤ (scanMax f (List.range' s n) acc).2
            ∧ (scanMax f (List.range' s n) acc).2 < s + n
            ∧ f (scanMax f (List.range' s n) acc).2 = (scanMax f (List.range' s n) acc).1
            ∧ acc.1 < (scanMax f (List.range' s n) acc).1
            ∧ ∀ i, s ≤ i → i < (scanMax f (List.range' s n) acc).2 →
                f i < (scanMax f (List.range' s n) acc).1)) := by
  intro n
  induction n with
  | zero =>
    intro s acc
    refine ⟨le_refl _, fun i hsi hi => absurd hi (by omega), Or.inl rfl⟩
  | succ n ih =>
    intro s acc
    rw [List.range'_succ, scanMax_cons]
    by_cases h : acc.1 < f s
    · rw [if_pos h]
      obtain ⟨ha, hb, hc⟩ := ih (s + 1) (f s, s)
      refine ⟨le_of_lt (lt_of_lt_of_le h ha), ?_, ?_⟩
      · intro i hsi hi
        rcases eq_or_lt_of_le hsi with rfl | hlt
        · exact ha
        · exact hb i (by omega) (by omega)
      · rcases hc with heq | ⟨h1, h2, h3, h4, h5⟩
        · rw [heq]
          refine Or.inr ⟨le_refl s, ?_, rfl, h, ?_⟩
          · show s < s + (n + 1)
            omega
          · intro i hsi hi
            have hi' : i < s := hi
            omega
        · refine Or.inr ⟨by omega, by omega, h3, lt_trans h h4, ?_⟩
          intro i hsi hi
          rcases eq_or_lt_of_le hsi with rfl | hlt
          · exact h4
          · exact h5 i (by omega) hi
    · rw [if_neg h]
      obtain ⟨ha, hb, hc⟩ := ih (s + 1) acc
      refine ⟨ha, ?_, ?_⟩
      · intro i hsi hi
        rcases eq_or_lt_of_le hsi with rfl | hlt
        · exact le_trans (not_lt.1 h) ha
        · exact hb i (by omega) (by omega)
      · rcases hc with heq | ⟨h1, h2, h3, h4, h5⟩
        · exact Or.inl heq
        · refine Or.inr ⟨by omega, by omega, h3, h4, ?_⟩
          intro i hsi hi
          rcases eq_or_lt_of_le hsi with rfl | hlt
          · exact lt_of_le_of_lt (not_lt.1 h) h4
          · exact h5 i (by omega) hi

/-! ## Properties of the `douglasPeucker` scan -/

theorem dpScan_fst_nonneg (sqrt : ℚ → ℚ) (points : List Point) :
    0 ≤ (dpScan sqrt points).1 :=
  (scanMax_range'_spec (dpDist sqrt points) (points.length - 2) 1 (0, 0)).1

theorem dpScan_max (sqrt : ℚ → ℚ) (points : List Point) (i : ℕ)
    (h1 : 1 ≤ i) (h2 : i < points.length - 1) (h3 : 3 ≤ points.length) :
    dpDist sqrt points i ≤ (dpScan sqrt points).1 :=
  (scanMax_range'_spec (dpDist sqrt points) (points.length - 2) 1 (0, 0)).2.1 i h1 (by omega)

theorem dpScan_snd_cases (sqrt : ℚ → ℚ) (points : List Point) :
    (dpScan sqrt points).2 = 0
    ∨ (1 ≤ (dpScan sqrt points).2 ∧ (dpScan sqrt points).2 < 1 + (points.length - 2)) := by
  rcases (scanMax_range'_spec (dpDist sqrt points) (points.length - 2) 1 (0, 0)).2.2 with
    heq | ⟨ha, hb, _, _, _⟩
  · left
    rw [show dpScan sqrt points = scanMax (dpDist sqrt points)
      (List.range' 1 (points.length - 2)) (0, 0) from rfl, heq]
  · right
    exact ⟨ha, hb⟩

theorem dpScan_pos (sqrt : ℚ → ℚ) (points : List Point)
    (h : 0 < (dpScan sqrt points).1) :
    1 ≤ (dpScan sqrt points).2 ∧ (dpScan sqrt points).2 < 1 + (points.length - 2)
    ∧ dpDist sqrt points (dpScan sqrt points).2 = (dpScan sqrt points).1 := by
  rcases (scanMax_range'_spec (dpDist sqrt points) (points.length - 2) 1 (0, 0)).2.2 with
    heq | ⟨ha, hb, hc, _, _⟩
  · exfalso
    have : dpScan sqrt points = ((0 : ℚ), (0 : ℕ)) := heq
    rw [this] at h
    exact lt_irrefl 0 h
  · exact ⟨ha, hb, hc⟩

/-! ## Structural properties of `dpAux` -/

theorem dpAux_short (sqrt : ℚ → ℚ) (t : ℚ) (fuel : ℕ) (points : List Point)
    (h : points.length ≤ 2) : dpAux sqrt t fuel points = points := by
  cases fuel with
  | zero => rfl
  | succ fuel => simp [dpAux, h]

theorem dpAux_length_ge (sqrt : ℚ → ℚ) (t : ℚ) :
    ∀ (fuel : ℕ) (points : List Point), 2 ≤ points.length →
      2 ≤ (dpAux sqrt t fuel points).length := by
  intro fuel
  induction fuel with
  | zero => intro points h; exact h
  | succ fuel ih =>
    intro points h
    by_cases h2 : points.length ≤ 2
    · rw [dpAux_short sqrt t _ _ h2]; exact h
    · push_neg at h2
      rw [show dpAux sqrt t (fuel + 1) points =
          (if t < (dpScan sqrt points).1 then
            (dpAux sqrt t fuel (points.take ((dpScan sqrt points).2 + 1))).dropLast ++
              dpAux sqrt t fuel (points.drop (dpScan sqrt points).2)
          else [points.getD 0 origin, points.getD (points.length - 1) origin]) from by
        simp [dpAux, Nat.not_le.2 h2]]
      by_cases hsplit : t < (dpScan sqrt points).1
      · rw [if_pos hsplit]
        have hdroplen : 2 ≤ (points.drop (dpScan sqrt points).2).length := by
          rw [List.length_drop]
          rcases dpScan_snd_cases sqrt points with h0 | ⟨hge, hlt⟩ <;> omega
        have := ih (points.drop (dpScan sqrt points).2) hdroplen
        simp only [List.length_append, List.length_dropLast]
        exact le_trans this (Nat.le_add_left _ _)
      · rw [if_neg hsplit]
        rfl

theorem dpAux_head? (sqrt : ℚ → ℚ) (t : ℚ) :
    ∀ (fuel : ℕ) (points : List Point),
      (dpAux sqrt t fuel points).head? = points.head? := by
  intro fuel
  induction fuel with
  | zero => intro points; rfl
  | succ fuel ih =>
    intro points
    by_cases h2 : points.length ≤ 2
    · rw [dpAux_short sqrt t _ _ h2]
    · push_neg at h2
      have hne : points ≠ [] := by
        intro hnil; rw [hnil] at h2; simp at h2
      rw [show dpAux sqrt t (fuel + 1) points =
          (if t < (dpScan sqrt points).1 then
            (dpAux sqrt t fuel (points.take ((dpScan sqrt points).2 + 1))).dropLast ++
              dpAux sqrt t fuel (points.drop (dpScan sqrt points).2)
          else [points.getD 0 origin, points.getD (points.length - 1) origin]) from by
        simp [dpAux, Nat.not_le.2 h2]]
      by_cases hsplit : t < (dpScan sqrt points).1
      · rw [if_pos hsplit]
        rcases dpScan_snd_cases sqrt points with h0 | ⟨hge, hlt⟩
        · rw [h0]
          have htake : points.take (0 + 1) = [points.getD 0 origin] := by
            cases points with
            | nil => exact absurd rfl hne
            | cons a l => rfl
          rw [htake, dpAux_short sqrt t fuel _ (by simp)]
          rw [show ([points.getD 0 origin] : List Point).dropLast = [] from rfl]
          rw [List.nil_append, List.drop_zero]
          exact ih points
        · have htakelen : 2 ≤ (points.take ((dpScan sqrt points).2 + 1)).length := by
            rw [List.length_take]
            omega
          have hAlen : 2 ≤ (dpAux sqrt t fuel
              (points.take ((dpScan sqrt points).2 + 1))).length :=
            dpAux_length_ge sqrt t fuel _ htakelen
          rw [head?_append_left _ _ (List.length_pos.1 (by
            rw [List.length_dropLast]
            omega))]
          rw [head?_dropLast _ hAlen, ih, head?_take _ _ (by omega)]
      · rw [if_neg hsplit]
        rw [show ([points.getD 0 origin,
            points.getD (points.length - 1) origin] : List Point).head? =
          some (points.getD 0 origin) from rfl]
        rw [head?_eq_getD points origin hne]

theorem dpAux_getLast? (sqrt : ℚ → ℚ) (t : ℚ) :
    ∀ (fuel : ℕ) (points : List Point),
      (dpAux sqrt t fuel points).getLast? = points.getLast? := by
  intro fuel
  induction fuel with
  | zero => intro points; rfl
  | succ fuel ih =>
    intro points
    by_cases h2 : points.length ≤ 2
    · rw [dpAux_short sqrt t _ _ h2]
    · push_neg at h2
      have hne : points ≠ [] := by
        intro hnil; rw [hnil] at h2; simp at h2
      rw [show dpAux sqrt t (fuel + 1) points =
          (if t < (dpScan sqrt points).1 then
            (dpAux sqrt t fuel (points.take ((dpScan sqrt points).2 + 1))).dropLast ++
              dpAux sqrt t fuel (points.drop (dpScan sqrt points).2)
          else [points.getD 0 origin, points.getD (points.length - 1) origin]) from by
        simp [dpAux, Nat.not_le.2 h2]]
      by_cases hsplit : t < (dpScan sqrt points).1
      · rw [if_pos hsplit]
        have hdroplen : 2 ≤ (points.drop (dpScan sqrt points).2).length := by
          rw [List.length_drop]
          rcases dpScan_snd_cases sqrt points with h0 | ⟨hge, hlt⟩ <;> omega
        have hBlen : 2 ≤ (dpAux sqrt t fuel
            (points.drop (dpScan sqrt points).2)).length :=
          dpAux_length_ge sqrt t fuel _ hdroplen
        rw [getLast?_append_right _ _ (by
          intro hnil
          rw [hnil] at hBlen
          simp at hBlen)]
        rw [ih, getLast?_drop _ _ (by
          rcases dpScan_snd_cases sqrt points with h0 | ⟨hge, hlt⟩ <;> omega)]
      · rw [if_neg hsplit]
        rw [show ([points.getD 0 origin,
            points.getD (points.length - 1) origin] : List Point).getLast? =
          some (points.getD (points.length - 1) origin) from rfl]
        rw [getLast?_eq_getD points origin hne]

/-- A larger tolerance never yields more points, at any fixed recursion
depth (the scan is tolerance-independent, so both runs split at the same
indices). -/
theorem dpAux_mono (sqrt : ℚ → ℚ) :
    ∀ (fuel : ℕ) (points : List Point) (t1 t2 : ℚ), t1 ≤ t2 →
      (dpAux sqrt t2 fuel points).length ≤ (dpAux sqrt t1 fuel points).length := by
  intro fuel
  induction fuel with
  | zero => intro points t1 t2 _; exact le_refl _
  | succ fuel ih =>
    intro points t1 t2 h12
    by_cases h2 : points.length ≤ 2
    · rw [dpAux_short sqrt t1 _ _ h2, dpAux_short sqrt t2 _ _ h2]
    · push_neg at h2
      have unf : ∀ t : ℚ, dpAux sqrt t (fuel + 1) points =
          (if t < (dpScan sqrt points).1 then
            (dpAux sqrt t fuel (points.take ((dpScan sqrt points).2 + 1))).dropLast ++
              dpAux sqrt t fuel (points.drop (dpScan sqrt points).2)
          else [points.getD 0 origin, points.getD (points.length - 1) origin]) := by
        intro t
        simp [dpAux, Nat.not_le.2 h2]
      rw [unf t1, unf t2]
      by_cases hs2 : t2 < (dpScan sqrt points).1
      · rw [if_pos hs2, if_pos (lt_of_le_of_lt h12 hs2)]
        simp only [List.length_append, List.length_dropLast]
        have hA := ih (points.take ((dpScan sqrt points).2 + 1)) t1 t2 h12
        have hB := ih (points.drop (dpScan sqrt points).2) t1 t2 h12
        omega
      · rw [if_neg hs2]
        by_cases hs1 : t1 < (dpScan sqrt points).1
        · rw [if_pos hs1]
          have hdroplen : 2 ≤ (points.drop (dpScan sqrt points).2).length := by
            rw [List.length_drop]
            rcases dpScan_snd_cases sqrt points with h0 | ⟨hge, hlt⟩ <;> omega
          have hB := dpAux_length_ge sqrt t1 fuel _ hdroplen
          simp only [List.length_append, List.length_dropLast]
          show 2 ≤ _
          exact le_trans hB (Nat.le_add_left _ _)
        · rw [if_neg hs1]

/-- For a nonnegative tolerance the fuel counter is irrelevant as soon as
it covers the list length: the split index satisfies
`1 ≤ maxIndex ≤ points.length - 2`, so every recursive call strictly
shortens the list.  This is exactly the termination argument of the
source recursion. -/
theorem dpAux_fuel_irrel (sqrt : ℚ → ℚ) (t : ℚ) (ht : 0 ≤ t) :
    ∀ (fuel1 fuel2 : ℕ) (points : List Point),
      points.length ≤ fuel1 → points.length ≤ fuel2 →
      dpAux sqrt t fuel1 points = dpAux sqrt t fuel2 points := by
  intro fuel1
  induction fuel1 with
  | zero =>
    intro fuel2 points h1 h2
    have : points = [] := List.length_eq_zero.1 (by omega)
    rw [this, dpAux_short sqrt t 0 [] (by simp), dpAux_short sqrt t fuel2 [] (by simp)]
  | succ fuel1 ih =>
    intro fuel2 points h1 h2
    by_cases hlen : points.length ≤ 2
    · rw [dpAux_short sqrt t _ _ hlen, dpAux_short sqrt t _ _ hlen]
    · push_neg at hlen
      cases fuel2 with
      | zero => omega
      | succ fuel2 =>
        have unf : ∀ fuel : ℕ, dpAux sqrt t (fuel + 1) points =
            (if t < (dpScan sqrt points).1 then
              (dpAux sqrt t fuel (points.take ((dpScan sqrt points).2 + 1))).dropLast ++
                dpAux sqrt t fuel (points.drop (dpScan sqrt points).2)
            else [points.getD 0 origin, points.getD (points.length - 1) origin]) := by
          intro fuel
          simp [dpAux, Nat.not_le.2 hlen]
        rw [unf fuel1, unf fuel2]
        by_cases hsplit : t < (dpScan sqrt points).1
        · rw [if_pos hsplit, if_pos hsplit]
          obtain ⟨hge, hlt, _⟩ := dpScan_pos sqrt points (lt_of_le_of_lt ht hsplit)
          have htake : (points.take ((dpScan sqrt points).2 + 1)).length ≤ points.length - 1 := by
            rw [List.length_take]
            omega
          have hdrop : (points.drop (dpScan sqrt points).2).length ≤ points.length - 1 := by
            rw [List.length_drop]
            omega
          rw [ih fuel2 (points.take ((dpScan sqrt points).2 + 1)) (by omega) (by omega),
            ih fuel2 (points.drop (dpScan sqrt points).2) (by omega) (by omega)]
        · rw [if_neg hsplit, if_neg hsplit]

/-- `douglasPeucker` computed at any sufficient fuel. -/
theorem douglasPeucker_eq_dpAux (sqrt : ℚ → ℚ) (t : ℚ) (ht : 0 ≤ t) (fuel : ℕ)
    (points : List Point) (h : points.length ≤ fuel) :
    dpAux sqrt t fuel points = douglasPeucker sqrt t points :=
  dpAux_fuel_irrel sqrt t ht fuel points.length points h (le_refl _)

/-- The recursive unfolding of `douglasPeucker` in the split case. -/
theorem douglasPeucker_split (sqrt : ℚ → ℚ) (t : ℚ) (ht : 0 ≤ t) (points : List Point)
    (hlen : 2 < points.length) (hsplit : t < (dpScan sqrt points).1) :
    douglasPeucker sqrt t points =
      (douglasPeucker sqrt t (points.take ((dpScan sqrt points).2 + 1))).dropLast ++
        douglasPeucker sqrt t (points.drop (dpScan sqrt points).2) := by
  obtain ⟨hge, hlt, _⟩ := dpScan_pos sqrt points (lt_of_le_of_lt ht hsplit)
  obtain ⟨n, hn⟩ : ∃ n, points.length = n + 1 := ⟨points.length - 1, by omega⟩
  rw [douglasPeucker, hn]
  rw [show dpAux sqrt t (n + 1) points =
      (if t < (dpScan sqrt points).1 then
        (dpAux sqrt t n (points.take ((dpScan sqrt points).2 + 1))).dropLast ++
          dpAux sqrt t n (points.drop (dpScan sqrt points).2)
      else [points.getD 0 origin, points.getD (points.length - 1) origin]) from by
    simp [dpAux, Nat.not_le.2 hlen]]
  rw [if_pos hsplit]
  rw [douglasPeucker_eq_dpAux sqrt t ht n _ (by rw [List.length_take]; omega),
    douglasPeucker_eq_dpAux sqrt t ht n _ (by rw [List.length_drop]; omega)]

/-- The unfolding of `douglasPeucker` in the no-split case: only the two
endpoints are returned. -/
theorem douglasPeucker_flat (sqrt : ℚ → ℚ) (t : ℚ) (points : List Point)
    (hlen : 2 < points.length) (hflat : (dpScan sqrt points).1 ≤ t) :
    douglasPeucker sqrt t points =
      [points.getD 0 origin, points.getD (points.length - 1) origin] := by
  obtain ⟨n, hn⟩ : ∃ n, points.length = n + 1 := ⟨points.length - 1, by omega⟩
  rw [douglasPeucker, hn]
  rw [show dpAux sqrt t (n + 1) points =
      (if t < (dpScan sqrt points).1 then
        (dpAux sqrt t n (points.take ((dpScan sqrt points).2 + 1))).dropLast ++
          dpAux sqrt t n (points.drop (dpScan sqrt points).2)
      else [points.getD 0 origin, points.getD (points.length - 1) origin]) from by
    simp [dpAux, Nat.not_le.2 hlen]]
  rw [if_neg (not_lt.2 hflat), hn]

/-! ## Claim C3 — the ring sent onward is closed -/

/-- C3: for every coordinate ring accepted for polygon search (at least 3
points, i.e. 6 flat numbers), the ring produced by the closing step is
closed — its first flat pair equals its last flat pair by value — and if
the input was open, a copy of the first pair was appended at the end. -/
theorem extracted_ring_closed (cs : List ℚ) (h6 : 6 ≤ cs.length) :
    (closeRing cs).getD 0 0 = (closeRing cs).getD ((closeRing cs).length - 2) 0
    ∧ (closeRing cs).getD 1 0 = (closeRing cs).getD ((closeRing cs).length - 1) 0
    ∧ (¬(cs.getD 0 0 = cs.getD (cs.length - 2) 0 ∧ cs.getD 1 0 = cs.getD (cs.length - 1) 0) →
        closeRing cs = cs ++ [cs.getD 0 0, cs.getD 1 0]) := by
  unfold closeRing
  by_cases h : cs.getD 0 0 = cs.getD (cs.length - 2) 0 ∧ cs.getD 1 0 = cs.getD (cs.length - 1) 0
  · rw [if_pos h]
    exact ⟨h.1, h.2, fun hc => absurd h hc⟩
  · rw [if_neg h]
    refine ⟨?_, ?_, fun _ => rfl⟩
    · rw [List.getD_append _ _ _ _ (by omega), List.length_append]
      rw [show cs.length + [cs.getD 0 0, cs.getD 1 0].length - 2 = cs.length from by
        simp]
      rw [List.getD_append_right _ _ _ _ (le_refl _)]
      simp
    · rw [List.getD_append _ _ _ _ (by omega), List.length_append]
      rw [show cs.length + [cs.getD 0 0, cs.getD 1 0].length - 1 = cs.length + 1 from by
        simp]
      rw [List.getD_append_right _ _ _ _ (by omega)]
      simp

/-- Witness for C3 on the open three-point ring of the spec's scenario
shape. -/
theorem extracted_ring_closed_witness :
    6 ≤ ([0, 0, 1, 1, 2, 0] : List ℚ).length
    ∧ ((closeRing [0, 0, 1, 1, 2, 0]).getD 0 0 =
        (closeRing [0, 0, 1, 1, 2, 0]).getD ((closeRing [0, 0, 1, 1, 2, 0]).length - 2) 0
      ∧ (closeRing [0, 0, 1, 1, 2, 0]).getD 1 0 =
        (closeRing [0, 0, 1, 1, 2, 0]).getD ((closeRing [0, 0, 1, 1, 2, 0]).length - 1) 0
      ∧ (¬(([0, 0, 1, 1, 2, 0] : List ℚ).getD 0 0 =
              ([0, 0, 1, 1, 2, 0] : List ℚ).getD (([0, 0, 1, 1, 2, 0] : List ℚ).length - 2) 0
            ∧ ([0, 0, 1, 1, 2, 0] : List ℚ).getD 1 0 =
              ([0, 0, 1, 1, 2, 0] : List ℚ).getD (([0, 0, 1, 1, 2, 0] : List ℚ).length - 1) 0) →
          closeRing [0, 0, 1, 1, 2, 0] =
            [0, 0, 1, 1, 2, 0] ++ [([0, 0, 1, 1, 2, 0] : List ℚ).getD 0 0,
              ([0, 0, 1, 1, 2, 0] : List ℚ).getD 1 0])) :=
  ⟨by decide, extracted_ring_closed [0, 0, 1, 1, 2, 0] (by decide)⟩

/-! ## Claim C9 — the radius filter -/

/-- C9 (amended): the radius filter is serialised exactly as
`_geoloc:(lat, lng, R km)` with `R = searchRadius / 1000`; the default of
3000 m is substituted when the stored radius is absent or zero (the falsy
cases of `radius || 3000`); any other radius — including a negative one —
is used as stored. -/
theorem buildRadiusFilter_spec (render : ℚ → String) (lat lng r : ℚ) :
    buildRadiusFilter render lat lng none =
      "_geoloc:(" ++ render lat ++ ", " ++ render lng ++ ", " ++ render 3 ++ " km)"
    ∧ buildRadiusFilter render lat lng (some 0) =
      "_geoloc:(" ++ render lat ++ ", " ++ render lng ++ ", " ++ render 3 ++ " km)"
    ∧ (r ≠ 0 → buildRadiusFilter render lat lng (some r) =
      "_geoloc:(" ++ render lat ++ ", " ++ render lng ++ ", " ++ render (r / 1000) ++ " km)") := by
  refine ⟨?_, ?_, fun hr => ?_⟩
  · unfold buildRadiusFilter
    norm_num
  · unfold buildRadiusFilter
    norm_num
  · unfold buildRadiusFilter
    simp [hr]

/-- Witness for C9's amended statement at a positive stored radius. -/
theorem buildRadiusFilter_spec_witness :
    (2000 : ℚ) ≠ 0
    ∧ buildRadiusFilter (fun q => toString q.num) 39 (-8) (some 2000) =
      "_geoloc:(" ++ toString (39 : ℚ).num ++ ", " ++ toString (-8 : ℚ).num ++ ", " ++
        toString ((2000 : ℚ) / 1000).num ++ " km)" :=
  ⟨by norm_num, (buildRadiusFilter_spec (fun q => toString q.num) 39 (-8) 2000).2.2 (by norm_num)⟩

/-- A number serialisation agreeing with the JS template literal on the
four values that occur in the counterexample below. -/
def cexRender (q : ℚ) : String :=
  if q = 39 then "39" else if q = -8 then "-8" else if q = 3 then "3"
  else if q = -1 / 200 then "-0.005" else "<other>"

/-- Counterexample to C9 as stated: a stored radius of `-5` m is
non-positive, yet `radius || 3000` keeps it (negative numbers are truthy in
JS), so the serialised radius is `-0.005 km`, not the default `3 km` the
claim requires. -/
theorem radius_default_nonpositive_cex :
    buildRadiusFilter cexRender 39 (-8) (some (-5)) = "_geoloc:(39, -8, -0.005 km)"
    ∧ buildRadiusFilter cexRender 39 (-8) none = "_geoloc:(39, -8, 3 km)"
    ∧ buildRadiusFilter cexRender 39 (-8) (some (-5)) ≠
        buildRadiusFilter cexRender 39 (-8) none := by
  have h1 : buildRadiusFilter cexRender 39 (-8) (some (-5)) = "_geoloc:(39, -8, -0.005 km)" := by
    unfold buildRadiusFilter cexRender
    norm_num
    decide
  have h2 : buildRadiusFilter cexRender 39 (-8) none = "_geoloc:(39, -8, 3 km)" := by
    unfold buildRadiusFilter cexRender
    norm_num
    decide
  refine ⟨h1, h2, ?_⟩
  rw [h1, h2]
  decide

/-! ## Claim C1 — the length budget is never silently exceeded -/

/-- C1: the polygon search path either sends the index a filter text of at
most 3900 characters, or returns the explicit sample-data degraded outcome
(`usingSampleData: true`, a distinct response shape) — never an oversized
filter. -/
theorem polygon_budget_oversize_guard (sqrt : ℚ → ℚ) (render : ℚ → String)
    (coords : List ℚ) (h6 : 6 ≤ coords.length) :
    (∃ f, routePolygonDecision sqrt render coords = .sendToIndex f ∧ f.length ≤ 3900)
    ∨ routePolygonDecision sqrt render coords = .sampleFallback := by
  unfold routePolygonDecision
  rw [if_neg (by omega)]
  by_cases h : 3900 < (buildPolygonFilter render
      (polygonBudgetLoop sqrt render 100 (1 / 10000) (closeRing coords))).length
  · right
    simp only [if_pos h]
  · left
    refine ⟨buildPolygonFilter render
      (polygonBudgetLoop sqrt render 100 (1 / 10000) (closeRing coords)), ?_, by omega⟩
    simp only [if_neg h]

/-- Witness for C1 on a small concrete ring. -/
theorem polygon_budget_oversize_guard_witness :
    6 ≤ ([0, 0, 1, 1, 2, 0] : List ℚ).length
    ∧ ((∃ f, routePolygonDecision (fun _ => 0) (fun _ => "") [0, 0, 1, 1, 2, 0] =
          .sendToIndex f ∧ f.length ≤ 3900)
      ∨ routePolygonDecision (fun _ => 0) (fun _ => "") [0, 0, 1, 1, 2, 0] =
          .sampleFallback) :=
  ⟨by decide,
   polygon_budget_oversize_guard (fun _ => 0) (fun _ => "") [0, 0, 1, 1, 2, 0] (by decide)⟩

/-! ## Claim C8 — page appending is idempotent and non-overwriting -/

/-- C8: appending a page to the accumulator never touches the documents
already present (they form an unchanged prefix), only appends incoming
documents whose identifier is not yet present, and appending the same page
twice equals appending it once. -/
theorem appendPage_dedup_idempotent (prev incoming : List PropertyDoc) :
    (appendPage prev incoming).take prev.length = prev
    ∧ (∀ p, p ∈ appendPage prev incoming →
        p ∈ prev ∨ (p ∈ incoming ∧ ¬ docKey p ∈ prev.map docKey))
    ∧ appendPage (appendPage prev incoming) incoming = appendPage prev incoming := by
  refine ⟨?_, ?_, ?_⟩
  · unfold appendPage
    exact List.take_left prev _
  · intro p hp
    unfold appendPage at hp
    rcases List.mem_append.1 hp with hl | hr
    · exact Or.inl hl
    · obtain ⟨hmem, hpred⟩ := List.mem_filter.1 hr
      refine Or.inr ⟨hmem, ?_⟩
      intro hk
      rw [Bool.not_eq_true', ← Bool.not_eq_true] at hpred
      exact hpred (List.elem_iff.2 hk)
  · have hall : ∀ p ∈ incoming,
        docKey p ∈ (appendPage prev incoming).map docKey := by
      intro p hp
      by_cases hk : docKey p ∈ prev.map docKey
      · unfold appendPage
        rw [List.map_append]
        exact List.mem_append.2 (Or.inl hk)
      · have hpass : p ∈ incoming.filter
            (fun q => !(prev.map docKey).contains (docKey q)) := by
          refine List.mem_filter.2 ⟨hp, ?_⟩
          simp only [Bool.not_eq_eq_eq_not, Bool.not_true]
          rw [← Bool.not_eq_true]
          intro hc
          exact hk (List.elem_iff.1 hc)
        unfold appendPage
        rw [List.map_append]
        exact List.mem_append.2 (Or.inr (List.mem_map_of_mem docKey hpass))
    have hfil : incoming.filter
        (fun q => !((appendPage prev incoming).map docKey).contains (docKey q)) = [] := by
      rw [List.filter_eq_nil_iff]
      intro p hp
      simp only [Bool.not_eq_eq_eq_not, Bool.not_true, Bool.not_eq_false]
      exact List.elem_iff.2 (hall p hp)
    show (appendPage prev incoming) ++ _ = appendPage prev incoming
    rw [hfil, List.append_nil]

/-! ## Claim C2 — staleness handling of a superseded response -/

/-- A document accumulated by the current session. -/
def c2DocA : PropertyDoc := ⟨some "prop-1", none, []⟩

/-- A document carried by the superseded session's late response. -/
def c2DocB : PropertyDoc := ⟨some "prop-2", none, []⟩

/-- State visible under the current search id "S2": page 1 loaded, its
page-2 request in flight (`loadingMore = true`). -/
def c2State : WidgetState :=
  { properties := [c2DocA], totalHits := 400, hasMoreResults := true, currentPage := 1,
    isLoadingProperties := false, loadingMore := true, currentSearchIdRef := "S2" }

/-- A late page-2 response of the superseded session "S1". -/
def c2Stale : ResponseCtx :=
  { capturedSearchId := "S1", page := 2, respSearchId := some "S1",
    dataProperties := [c2DocB], dataCount := 999 }

/-- C2 (documenting the code bug): processing the superseded session's
late response leaves the document list, the total count, the has-more flag
and the page cursor of the current session untouched (the
`currentSearchIdRef` guard works), but it still clears the current
session's `loadingMore` flag, because the `finally` guard compares the
captured search id with itself.  The claim — and the source's own comment
"Only update loading state if this search is still current" — require the
flag to stay `true`. -/
theorem stale_response_loading_flag_bug :
    (processResponse c2State c2Stale).properties = c2State.properties
    ∧ (processResponse c2State c2Stale).totalHits = c2State.totalHits
    ∧ (processResponse c2State c2Stale).hasMoreResults = c2State.hasMoreResults
    ∧ (processResponse c2State c2Stale).currentPage = c2State.currentPage
    ∧ c2State.loadingMore = true
    ∧ (processResponse c2State c2Stale).loadingMore = false := by
  decide

/-! ## Claim C6 — MultiPolygon largest-ring selection -/

/-- C6: whenever some polygon of a MultiPolygon has a nonempty outer ring,
the selection loop picks an index in range whose outer-ring point count is
maximal, ties are won by the earliest index (every earlier polygon has a
strictly smaller count), and the extracted ring is the selected outer ring
with every stored `(lng, lat)` pair emitted in `(lat, lng)` order. -/
theorem multiPolygon_largest_ring_selection (polys : List (List (List (ℚ × ℚ))))
    (hne : ∃ p ∈ polys, 0 < polyCount p) :
    largestPolygonIndex polys < polys.length
    ∧ 0 < polyCount (polys.getD (largestPolygonIndex polys) [])
    ∧ (∀ k, k < polys.length →
        polyCount (polys.getD k []) ≤ polyCount (polys.getD (largestPolygonIndex polys) []))
    ∧ (∀ k, k < largestPolygonIndex polys →
        polyCount (polys.getD k []) < polyCount (polys.getD (largestPolygonIndex polys) []))
    ∧ extractMultiPolygonRing polys =
        convertRing ((polys.getD (largestPolygonIndex polys) []).headD [])
    ∧ (∀ (lng lat : ℚ) (rest : List (ℚ × ℚ)),
        convertRing ((lng, lat) :: rest) = lat :: lng :: convertRing rest) := by
  obtain ⟨p, hp, hpc⟩ := hne
  obtain ⟨k, hk, hkp⟩ := List.getElem_of_mem hp
  have hgetd : polys.getD k [] = p := by
    rw [List.getD_eq_getElem _ _ hk, hkp]
  have hfk : 0 < polyCount (polys.getD k []) := by rw [hgetd]; exact hpc
  have spec := scanMax_range'_spec (fun i => polyCount (polys.getD i []))
    polys.length 0 (0, 0)
  rcases spec.2.2 with heq | ⟨h0le, hlt, hfeq, hpos, hfirst⟩
  · exfalso
    have hle := spec.2.1 k (Nat.zero_le k) (by omega)
    rw [heq] at hle
    exact absurd (lt_of_lt_of_le hfk hle) (lt_irrefl 0)
  · have hidx : largestPolygonIndex polys =
        (scanMax (fun i => polyCount (polys.getD i [])) (List.range' 0 polys.length) (0, 0)).2 :=
      rfl
    refine ⟨?_, ?_, ?_, ?_, rfl, fun lng lat rest => rfl⟩
    · rw [hidx]; omega
    · rw [hidx, hfeq]; exact hpos
    · intro j hj
      rw [hidx, hfeq]
      exact spec.2.1 j (Nat.zero_le j) (by omega)
    · intro j hj
      rw [hidx] at hj ⊢
      rw [hfeq]
      exact hfirst j (Nat.zero_le j) hj

/-- The MultiPolygon of the spec's concrete scenario: sibling outer-ring
point counts 12, 340 and 58. -/
def polys6 : List (List (List (ℚ × ℚ))) :=
  [[List.replicate 12 ((0 : ℚ), (0 : ℚ))],
   [List.replicate 340 ((0 : ℚ), (0 : ℚ))],
   [List.replicate 58 ((0 : ℚ), (0 : ℚ))]]

set_option maxRecDepth 10000 in
/-- Witness for C6 on ring point counts `[12, 340, 58]`: index 1 is
selected. -/
theorem multiPolygon_largest_ring_selection_witness :
    (∃ p ∈ polys6, 0 < polyCount p)
    ∧ largestPolygonIndex polys6 < polys6.length
    ∧ largestPolygonIndex polys6 = 1 := by
  have hyp : ∃ p ∈ polys6, 0 < polyCount p :=
    ⟨[List.replicate 12 ((0 : ℚ), (0 : ℚ))], by decide, by decide⟩
  exact ⟨hyp, (multiPolygon_largest_ring_selection polys6 hyp).1, by decide⟩

/-! ## Helpers about the flat-array / point-list conversions -/

theorem toPoints_length : ∀ cs : List ℚ, (toPoints cs).length = cs.length / 2 := by
  intro cs
  induction cs using toPoints.induct with
  | case1 lat lng rest ih =>
    show (⟨lat, lng⟩ :: toPoints rest : List Point).length = (rest.length + 2) / 2
    rw [List.length_cons, ih]
    omega
  | case2 cs h =>
    match cs with
    | [] => rfl
    | [a] => simp [toPoints]
    | a :: b :: rest => exact absurd rfl (h a b rest)

theorem toPoints_getD : ∀ (i : ℕ) (cs : List ℚ), 2 * i + 1 < cs.length →
    (toPoints cs).getD i origin = ⟨cs.getD (2 * i) 0, cs.getD (2 * i + 1) 0⟩ := by
  intro i
  induction i with
  | zero =>
    intro cs h
    match cs with
    | a :: b :: rest => rfl
  | succ i ih =>
    intro cs h
    match cs with
    | a :: b :: rest =>
      show (toPoints rest).getD i origin = _
      rw [ih rest (by simp at h; omega)]
      have h2 : 2 * (i + 1) = 2 * i + 1 + 1 := by omega
      rw [h2]
      rfl

theorem flattenPoints_length : ∀ ps : List Point, (flattenPoints ps).length = 2 * ps.length := by
  intro ps
  induction ps with
  | nil => rfl
  | cons p rest ih =>
    show (flattenPoints rest).length + 2 = _
    rw [ih, List.length_cons]
    omega

theorem flattenPoints_append : ∀ ps qs : List Point,
    flattenPoints (ps ++ qs) = flattenPoints ps ++ flattenPoints qs := by
  intro ps qs
  induction ps with
  | nil => rfl
  | cons p rest ih =>
    show p.lat :: p.lng :: flattenPoints (rest ++ qs) = _
    rw [ih]
    rfl

/-- The closure predicate on flat coordinate arrays: first flat pair equals
last flat pair. -/
def closedFlat (cs : List ℚ) : Prop :=
  cs.getD 0 0 = cs.getD (cs.length - 2) 0 ∧ cs.getD 1 0 = cs.getD (cs.length - 1) 0

instance (cs : List ℚ) : Decidable (closedFlat cs) := by
  unfold closedFlat
  infer_instance

/-- For a proper (even-length) flat ring the flat closure predicate is the
point-level closure test computed by `simplifyPolygon`. -/
theorem closedFlat_iff_points (cs : List ℚ) (h6 : 6 ≤ cs.length)
    (heven : cs.length % 2 = 0) :
    closedFlat cs ↔
      (toPoints cs).getD 0 origin = (toPoints cs).getD ((toPoints cs).length - 1) origin := by
  rw [toPoints_length, toPoints_getD 0 cs (by omega),
    toPoints_getD (cs.length / 2 - 1) cs (by omega)]
  have h1 : 2 * (cs.length / 2 - 1) = cs.length - 2 := by omega
  have h2 : 2 * (cs.length / 2 - 1) + 1 = cs.length - 1 := by omega
  rw [h2, h1, show (2 : ℕ) * 0 = 0 from rfl, show (2 : ℕ) * 0 + 1 = 1 from rfl]
  unfold closedFlat
  rw [Point.mk.injEq]

/-- Branch analysis of `simplifyPolygon` for inputs of at least 3 points:
the open-ring branch and the closed-ring branch. -/
theorem simplifyPolygon_spec (sqrt : ℚ → ℚ) (t : ℚ) (cs : List ℚ) (h6 : 6 ≤ cs.length) :
    (¬ ((toPoints cs).getD 0 origin = (toPoints cs).getD ((toPoints cs).length - 1) origin) →
      simplifyPolygon sqrt t cs =
        (if (douglasPeucker sqrt t (toPoints cs)).length < 3 then cs
         else flattenPoints (douglasPeucker sqrt t (toPoints cs))))
    ∧ (((toPoints cs).getD 0 origin = (toPoints cs).getD ((toPoints cs).length - 1) origin) →
      simplifyPolygon sqrt t cs =
        (if (douglasPeucker sqrt t (toPoints cs).dropLast).length < 3 then cs
         else flattenPoints (douglasPeucker sqrt t (toPoints cs).dropLast ++
           [(douglasPeucker sqrt t (toPoints cs).dropLast).getD 0 origin]))) := by
  constructor
  · intro hopen
    unfold simplifyPolygon
    rw [if_neg (by omega)]
    simp only [if_neg hopen]
  · intro hclosed
    unfold simplifyPolygon
    rw [if_neg (by omega)]
    simp only [if_pos hclosed]

/-- Endpoint preservation restated for `douglasPeucker` itself. -/
theorem douglasPeucker_head? (sqrt : ℚ → ℚ) (t : ℚ) (points : List Point) :
    (douglasPeucker sqrt t points).head? = points.head? :=
  dpAux_head? sqrt t points.length points

/-- Endpoint preservation restated for `douglasPeucker` itself. -/
theorem douglasPeucker_getLast? (sqrt : ℚ → ℚ) (t : ℚ) (points : List Point) :
    (douglasPeucker sqrt t points).getLast? = points.getLast? :=
  dpAux_getLast? sqrt t points.length points

/-- Length lower bound restated for `douglasPeucker` itself. -/
theorem douglasPeucker_length_ge (sqrt : ℚ → ℚ) (t : ℚ) (points : List Point)
    (h : 2 ≤ points.length) : 2 ≤ (douglasPeucker sqrt t points).length :=
  dpAux_length_ge sqrt t points.length points h

/-! ## Claim C10 — endpoints are preserved -/

/-- C10: for every non-empty point list and nonnegative tolerance the
Douglas–Peucker core keeps the first and last input points as the first and
last output points, and `simplifyPolygon` never changes the ring's starting
vertex (its first flat pair). -/
theorem douglasPeucker_preserves_endpoints (sqrt : ℚ → ℚ) (t : ℚ) (points : List Point)
    (cs : List ℚ) (ht : 0 ≤ t) (hne : points ≠ []) (h6 : 6 ≤ cs.length) :
    (douglasPeucker sqrt t points).head? = points.head?
    ∧ (douglasPeucker sqrt t points).getLast? = points.getLast?
    ∧ (simplifyPolygon sqrt t cs).getD 0 0 = cs.getD 0 0
    ∧ (simplifyPolygon sqrt t cs).getD 1 0 = cs.getD 1 0 := by
  refine ⟨douglasPeucker_head? sqrt t points, douglasPeucker_getLast? sqrt t points, ?_⟩
  match cs, h6 with
  | a :: b :: rest, hlen =>
    have hrest : 4 ≤ rest.length := by
      simp only [List.length_cons] at hlen
      omega
    have hplen : 3 ≤ (toPoints (a :: b :: rest)).length := by
      rw [toPoints_length]
      simp only [List.length_cons]
      omega
    have hphead : (toPoints (a :: b :: rest)).head? = some ⟨a, b⟩ := rfl
    by_cases hcl : (toPoints (a :: b :: rest)).getD 0 origin =
        (toPoints (a :: b :: rest)).getD ((toPoints (a :: b :: rest)).length - 1) origin
    · rw [(simplifyPolygon_spec sqrt t _ hlen).2 hcl]
      by_cases hsm : (douglasPeucker sqrt t (toPoints (a :: b :: rest)).dropLast).length < 3
      · rw [if_pos hsm]
        exact ⟨rfl, rfl⟩
      · rw [if_neg hsm]
        have hShead : (douglasPeucker sqrt t (toPoints (a :: b :: rest)).dropLast).head? =
            some ⟨a, b⟩ := by
          rw [douglasPeucker_head?, head?_dropLast _ (by omega), hphead]
        obtain ⟨tail, htail⟩ :
            ∃ tail, douglasPeucker sqrt t (toPoints (a :: b :: rest)).dropLast =
              ⟨a, b⟩ :: tail := by
          match hS : douglasPeucker sqrt t (toPoints (a :: b :: rest)).dropLast with
          | [] => rw [hS] at hShead; exact absurd hShead (by simp)
          | p :: tail =>
            rw [hS] at hShead
            simp only [List.head?_cons, Option.some.injEq] at hShead
            exact ⟨tail, by rw [hShead]⟩
        rw [htail]
        exact ⟨rfl, rfl⟩
    · rw [(simplifyPolygon_spec sqrt t _ hlen).1 hcl]
      by_cases hsm : (douglasPeucker sqrt t (toPoints (a :: b :: rest))).length < 3
      · rw [if_pos hsm]
        exact ⟨rfl, rfl⟩
      · rw [if_neg hsm]
        have hShead : (douglasPeucker sqrt t (toPoints (a :: b :: rest))).head? =
            some ⟨a, b⟩ := by
          rw [douglasPeucker_head?, hphead]
        obtain ⟨tail, htail⟩ :
            ∃ tail, douglasPeucker sqrt t (toPoints (a :: b :: rest)) = ⟨a, b⟩ :: tail := by
          match hS : douglasPeucker sqrt t (toPoints (a :: b :: rest)) with
          | [] => rw [hS] at hShead; exact absurd hShead (by simp)
          | p :: tail =>
            rw [hS] at hShead
            simp only [List.head?_cons, Option.some.injEq] at hShead
            exact ⟨tail, by rw [hShead]⟩
        rw [htail]
        exact ⟨rfl, rfl⟩

/-- Witness for C10 on a concrete triangle and ring. -/
theorem douglasPeucker_preserves_endpoints_witness :
    ((0 : ℚ) ≤ 1 ∧ ([⟨0, 0⟩, ⟨1, 1⟩, ⟨2, 0⟩] : List Point) ≠ [] ∧
      6 ≤ ([0, 0, 1, 1, 2, 0] : List ℚ).length)
    ∧ ((douglasPeucker (fun _ => 0) 1 [⟨0, 0⟩, ⟨1, 1⟩, ⟨2, 0⟩]).head? =
        ([⟨0, 0⟩, ⟨1, 1⟩, ⟨2, 0⟩] : List Point).head?
      ∧ (douglasPeucker (fun _ => 0) 1 [⟨0, 0⟩, ⟨1, 1⟩, ⟨2, 0⟩]).getLast? =
        ([⟨0, 0⟩, ⟨1, 1⟩, ⟨2, 0⟩] : List Point).getLast?
      ∧ (simplifyPolygon (fun _ => 0) 1 [0, 0, 1, 1, 2, 0]).getD 0 0 =
        ([0, 0, 1, 1, 2, 0] : List ℚ).getD 0 0
      ∧ (simplifyPolygon (fun _ => 0) 1 [0, 0, 1, 1, 2, 0]).getD 1 0 =
        ([0, 0, 1, 1, 2, 0] : List ℚ).getD 1 0) :=
  ⟨⟨by norm_num, by decide, by decide⟩,
   douglasPeucker_preserves_endpoints (fun _ => 0) 1 [⟨0, 0⟩, ⟨1, 1⟩, ⟨2, 0⟩]
     [0, 0, 1, 1, 2, 0] (by norm_num) (by decide) (by decide)⟩

/-! ## Concrete square root used by the executable runs -/

/-- A square-root function that is exact at the perfect squares occurring
in the concrete runs below (1, 4, 9, 25); on those arguments it coincides
with `Math.sqrt`, and the remaining arguments only ever occur multiplied by
a zero numerator. -/
def tableSqrt (q : ℚ) : ℚ :=
  if q = 1 then 1 else if q = 4 then 2 else if q = 9 then 3 else if q = 25 then 5 else 0

theorem tableSqrt_nonneg : ∀ q : ℚ, 0 ≤ tableSqrt q := by
  intro q
  unfold tableSqrt
  split_ifs <;> norm_num

/-! ## Claim C5 — simplification safety -/

/-- Re-closing a flattened point list by appending a copy of its first
point yields a closed flat ring. -/
theorem closedFlat_flatten_reclose (p : Point) (tail : List Point) :
    closedFlat (flattenPoints (p :: tail) ++ [p.lat, p.lng]) := by
  have hflen : flattenPoints (p :: tail) = p.lat :: p.lng :: flattenPoints tail := rfl
  have h2 : 2 ≤ (flattenPoints (p :: tail)).length := by
    rw [flattenPoints_length]
    simp only [List.length_cons]
    omega
  unfold closedFlat
  refine ⟨?_, ?_⟩
  · rw [List.length_append]
    rw [show (flattenPoints (p :: tail)).length + ([p.lat, p.lng] : List ℚ).length - 2 =
        (flattenPoints (p :: tail)).length from by simp]
    rw [List.getD_append _ _ _ _ (by omega), List.getD_append_right _ _ _ _ (le_refl _),
      Nat.sub_self]
    rw [hflen]
    rfl
  · rw [List.length_append]
    rw [show (flattenPoints (p :: tail)).length + ([p.lat, p.lng] : List ℚ).length - 1 =
        (flattenPoints (p :: tail)).length + 1 from by simp]
    rw [List.getD_append _ _ _ _ (by omega), List.getD_append_right _ _ _ _ (by omega)]
    rw [show (flattenPoints (p :: tail)).length + 1 - (flattenPoints (p :: tail)).length = 1
      from by omega]
    rw [hflen]
    rfl

/-- C5 (amended): for every proper ring of at least 3 points and
nonnegative tolerance, `simplifyPolygon` never returns fewer than 3 points
counted with multiplicity (at least 6 flat numbers); a closed input yields
a closed output; and when the core simplification of a closed ring drops
below 3 points the original ring is returned unchanged.  (The counts are
with multiplicity: the code's guard checks `simplified.length < 3`, not
distinctness — see the counterexample.) -/
theorem simplify_min_points_safety (sqrt : ℚ → ℚ) (t : ℚ) (cs : List ℚ)
    (ht : 0 ≤ t) (h6 : 6 ≤ cs.length) (heven : cs.length % 2 = 0) :
    6 ≤ (simplifyPolygon sqrt t cs).length
    ∧ (closedFlat cs → closedFlat (simplifyPolygon sqrt t cs))
    ∧ (closedFlat cs → (douglasPeucker sqrt t (toPoints cs).dropLast).length < 3 →
        simplifyPolygon sqrt t cs = cs) := by
  by_cases hcl : (toPoints cs).getD 0 origin =
      (toPoints cs).getD ((toPoints cs).length - 1) origin
  · rw [(simplifyPolygon_spec sqrt t cs h6).2 hcl]
    by_cases hsm : (douglasPeucker sqrt t (toPoints cs).dropLast).length < 3
    · rw [if_pos hsm]
      exact ⟨h6, fun h => h, fun _ _ => rfl⟩
    · rw [if_neg hsm]
      push_neg at hsm
      rcases hSs : douglasPeucker sqrt t (toPoints cs).dropLast with _ | ⟨p, tail⟩
      · rw [hSs] at hsm
        simp at hsm
      · rw [hSs] at hsm
        refine ⟨?_, fun _ => ?_, fun _ hlt => ?_⟩
        · rw [show ((p :: tail : List Point)).getD 0 origin = p from rfl,
            flattenPoints_append, List.length_append, flattenPoints_length,
            flattenPoints_length]
          simp only [List.length_cons] at hsm ⊢
          omega
        · rw [show ((p :: tail : List Point)).getD 0 origin = p from rfl]
          rw [show flattenPoints ((p :: tail) ++ [p]) =
            flattenPoints (p :: tail) ++ flattenPoints [p] from
              flattenPoints_append (p :: tail) [p]]
          exact closedFlat_flatten_reclose p tail
        · exact absurd hlt (by omega)
  · rw [(simplifyPolygon_spec sqrt t cs h6).1 hcl]
    have hnc : ¬ closedFlat cs := fun h => hcl ((closedFlat_iff_points cs h6 heven).1 h)
    by_cases hsm : (douglasPeucker sqrt t (toPoints cs)).length < 3
    · rw [if_pos hsm]
      exact ⟨h6, fun h => h, fun _ _ => rfl⟩
    · rw [if_neg hsm]
      push_neg at hsm
      refine ⟨?_, fun h => absurd h hnc, fun h => absurd h hnc⟩
      rw [flattenPoints_length]
      omega

/-- Witness for C5's amended statement on the ring of the counterexample
below. -/
theorem simplify_min_points_safety_witness :
    ((0 : ℚ) ≤ 1 ∧ 6 ≤ ([0, 0, 0, 2, 0, 1, 0, 0, 0, 0] : List ℚ).length ∧
      ([0, 0, 0, 2, 0, 1, 0, 0, 0, 0] : List ℚ).length % 2 = 0)
    ∧ (6 ≤ (simplifyPolygon tableSqrt 1 [0, 0, 0, 2, 0, 1, 0, 0, 0, 0]).length
      ∧ (closedFlat [0, 0, 0, 2, 0, 1, 0, 0, 0, 0] →
          closedFlat (simplifyPolygon tableSqrt 1 [0, 0, 0, 2, 0, 1, 0, 0, 0, 0]))
      ∧ (closedFlat [0, 0, 0, 2, 0, 1, 0, 0, 0, 0] →
          (douglasPeucker tableSqrt 1 (toPoints [0, 0, 0, 2, 0, 1, 0, 0, 0, 0]).dropLast).length < 3 →
          simplifyPolygon tableSqrt 1 [0, 0, 0, 2, 0, 1, 0, 0, 0, 0] =
            [0, 0, 0, 2, 0, 1, 0, 0, 0, 0])) :=
  ⟨⟨by norm_num, by decide, by decide⟩,
   simplify_min_points_safety tableSqrt 1 [0, 0, 0, 2, 0, 1, 0, 0, 0, 0]
     (by norm_num) (by decide) (by decide)⟩

/-- The closed five-point ring `A B C A A` with `A = (0,0)`, `B = (0,2)`,
`C = (0,1)`: three distinct points, but the closing vertex is duplicated
before the closing copy. -/
def cs5 : List ℚ := [0, 0, 0, 2, 0, 1, 0, 0, 0, 0]

set_option maxHeartbeats 2000000 in
/-- Counterexample to C5 as stated: on `cs5` (5 points, 3 of them
distinct) at tolerance 1 the code returns the ring `A B A A` — 4 points
but only 2 distinct ones, so "never returns fewer than 3 distinct points"
fails.  All arithmetic in this run is exact, and `tableSqrt` agrees with
`Math.sqrt` on the two values it is applied to (4 and 1). -/
theorem simplify_distinct_points_cex :
    (toPoints cs5).length = 5
    ∧ (⟨0, 0⟩ : Point) ∈ toPoints cs5 ∧ (⟨0, 2⟩ : Point) ∈ toPoints cs5
    ∧ (⟨0, 1⟩ : Point) ∈ toPoints cs5
    ∧ ((⟨0, 0⟩ : Point) ≠ ⟨0, 2⟩ ∧ (⟨0, 0⟩ : Point) ≠ ⟨0, 1⟩ ∧ (⟨0, 2⟩ : Point) ≠ ⟨0, 1⟩)
    ∧ simplifyPolygon tableSqrt 1 cs5 = [0, 0, 0, 2, 0, 0, 0, 0]
    ∧ (∀ p ∈ toPoints (simplifyPolygon tableSqrt 1 cs5), p = ⟨0, 0⟩ ∨ p = ⟨0, 2⟩) := by
  have hrun : simplifyPolygon tableSqrt 1 cs5 = [0, 0, 0, 2, 0, 0, 0, 0] := by
    norm_num [cs5, simplifyPolygon, douglasPeucker, dpAux, dpScan, dpDist, scanMax,
      perpendicularDistance, pointDistSq, segLengthSq, toPoints, flattenPoints, origin,
      tableSqrt, List.range', abs_div]
  refine ⟨by norm_num [cs5, toPoints], ?_, ?_, ?_, ?_, hrun, ?_⟩
  · norm_num [cs5, toPoints]
  · norm_num [cs5, toPoints]
  · norm_num [cs5, toPoints]
  · exact ⟨by norm_num [Point.mk.injEq], by norm_num [Point.mk.injEq],
      by norm_num [Point.mk.injEq]⟩
  · rw [hrun]
    intro p hp
    simp only [toPoints, List.mem_cons, List.not_mem_nil, or_false] at hp
    rcases hp with h | h | h | h <;> rw [h] <;> norm_num [Point.mk.injEq]

/-! ## Claim C7 — monotonicity in the tolerance -/

/-- C7 (amended): the Douglas–Peucker core is antitone in the tolerance —
for `0 ≤ t1 ≤ t2` simplifying at `t1` keeps at least as many points as at
`t2`.  (The wrapper `simplifyPolygon` is not monotone: its fewer-than-3
fallback can return the larger original ring at the larger tolerance — see
the counterexample.) -/
theorem douglasPeucker_tolerance_antitone (sqrt : ℚ → ℚ) (t1 t2 : ℚ)
    (points : List Point) (ht : 0 ≤ t1) (h12 : t1 ≤ t2) :
    (douglasPeucker sqrt t2 points).length ≤ (douglasPeucker sqrt t1 points).length :=
  dpAux_mono sqrt points.length points t1 t2 h12

/-- Witness for C7's amended statement. -/
theorem douglasPeucker_tolerance_antitone_witness :
    ((0 : ℚ) ≤ 0 ∧ (0 : ℚ) ≤ 1)
    ∧ (douglasPeucker tableSqrt 1 [⟨0, 0⟩, ⟨1, 1⟩, ⟨2, 0⟩]).length ≤
        (douglasPeucker tableSqrt 0 [⟨0, 0⟩, ⟨1, 1⟩, ⟨2, 0⟩]).length :=
  ⟨⟨by norm_num, by norm_num⟩,
   douglasPeucker_tolerance_antitone tableSqrt 0 1 [⟨0, 0⟩, ⟨1, 1⟩, ⟨2, 0⟩]
     (by norm_num) (by norm_num)⟩

/-- The closed ring `A B C D A` with `A = (0,0)`, `B = (1,2)`,
`C = (2,1)`, `D = (3,0)`; `C` lies on the segment from `B` to `D`. -/
def cs7 : List ℚ := [0, 0, 1, 2, 2, 1, 3, 0, 0, 0]

set_option maxHeartbeats 2000000 in
/-- Counterexample to C7 as stated for `simplifyPolygon`: on `cs7` with
tolerances `1 < 3`, simplification at tolerance 1 yields 4 points (8 flat
numbers) while at the larger tolerance 3 the core drops to 2 points and
the fallback returns the original 5-point ring (10 flat numbers), so
`simplify(ring, t1).points.length ≥ simplify(ring, t2).points.length`
fails.  All arithmetic in this run is exact and `tableSqrt` agrees with
`Math.sqrt` on the one value whose square root is consumed (9; the other
radicand, 8, is only ever multiplied by a zero area). -/
theorem simplify_monotonicity_cex :
    (1 : ℚ) < 3
    ∧ simplifyPolygon tableSqrt 1 cs7 = [0, 0, 1, 2, 3, 0, 0, 0]
    ∧ simplifyPolygon tableSqrt 3 cs7 = cs7
    ∧ (simplifyPolygon tableSqrt 1 cs7).length < (simplifyPolygon tableSqrt 3 cs7).length := by
  have h1 : simplifyPolygon tableSqrt 1 cs7 = [0, 0, 1, 2, 3, 0, 0, 0] := by
    norm_num [cs7, simplifyPolygon, douglasPeucker, dpAux, dpScan, dpDist, scanMax,
      perpendicularDistance, pointDistSq, segLengthSq, toPoints, flattenPoints, origin,
      tableSqrt, List.range', abs_div]
  have h3 : simplifyPolygon tableSqrt 3 cs7 = cs7 := by
    norm_num [cs7, simplifyPolygon, douglasPeucker, dpAux, dpScan, dpDist, scanMax,
      perpendicularDistance, pointDistSq, segLengthSq, toPoints, flattenPoints, origin,
      tableSqrt, List.range', abs_div]
  refine ⟨by norm_num, h1, h3, ?_⟩
  rw [h1, h3]
  decide

/-! ## Claim C4 — the Douglas–Peucker core follows the specified steps -/

/-- The triangle area of the spec's wording: the standard shoelace
half-cross-product formula `|x_A(y_B − y_P) + x_B(y_P − y_A) +
x_P(y_A − y_B)| / 2`. -/
def specTriangleArea (a b p : Point) : ℚ :=
  |a.lat * (b.lng - p.lng) + b.lat * (p.lng - a.lng) + p.lat * (a.lng - b.lng)| / 2

/-- C4: the Douglas–Peucker core follows the spec's steps.  Lists of at
most 2 points are returned unchanged; for `A ≠ B` and `s` the Euclidean
length `|A − B|` (characterised by `0 ≤ s` and `s * s = |A − B|²`, with
`sqrt` exact there) the interior distance is `2 · triangleArea(A,B,P) / s`,
with the Euclidean distance to the endpoint as fallback when the segment is
degenerate; the scanned maximum dominates every interior distance; when it
exceeds the tolerance the list splits at the farthest point (an interior
index attaining the maximum) and the two recursively simplified halves are
concatenated with the duplicated midpoint dropped; otherwise only the two
endpoints are returned. -/
theorem douglasPeucker_follows_spec (sqrt : ℚ → ℚ) (t : ℚ) (shortPts pts : List Point)
    (P A B Q C : Point) (s e : ℚ)
    (hshort : shortPts.length ≤ 2)
    (ht : 0 ≤ t)
    (hlen : 2 < pts.length)
    (hAB : A ≠ B)
    (hs0 : 0 ≤ s) (hss : s * s = segLengthSq A B) (hsq : sqrt (segLengthSq A B) = s)
    (he0 : 0 ≤ e) (hee : e * e = pointDistSq Q C) (heq : sqrt (pointDistSq Q C) = e) :
    douglasPeucker sqrt t shortPts = shortPts
    ∧ perpendicularDistance sqrt P A B = 2 * specTriangleArea A B P / s
    ∧ perpendicularDistance sqrt Q C C = e
    ∧ (∀ i, 1 ≤ i → i + 1 < pts.length → dpDist sqrt pts i ≤ (dpScan sqrt pts).1)
    ∧ (t < (dpScan sqrt pts).1 →
        1 ≤ (dpScan sqrt pts).2 ∧ (dpScan sqrt pts).2 + 1 < pts.length
        ∧ dpDist sqrt pts (dpScan sqrt pts).2 = (dpScan sqrt pts).1
        ∧ douglasPeucker sqrt t pts =
            (douglasPeucker sqrt t (pts.take ((dpScan sqrt pts).2 + 1))).dropLast ++
              douglasPeucker sqrt t (pts.drop (dpScan sqrt pts).2))
    ∧ ((dpScan sqrt pts).1 ≤ t →
        douglasPeucker sqrt t pts = [pts.getD 0 origin, pts.getD (pts.length - 1) origin]) := by
  have hcond : ¬ (A.lat = B.lat ∧ A.lng = B.lng) := by
    intro h
    apply hAB
    cases A
    cases B
    simp_all
  refine ⟨dpAux_short sqrt t shortPts.length shortPts hshort, ?_, ?_, ?_, ?_, ?_⟩
  · unfold perpendicularDistance specTriangleArea
    rw [if_neg hcond, hsq, abs_div]
    norm_num
  · unfold perpendicularDistance
    rw [if_pos ⟨rfl, rfl⟩, heq]
  · intro i h1 h2
    exact dpScan_max sqrt pts i h1 (by omega) (by omega)
  · intro hsplit
    obtain ⟨hge, hlt, hfeq⟩ := dpScan_pos sqrt pts (lt_of_le_of_lt ht hsplit)
    exact ⟨hge, by omega, hfeq, douglasPeucker_split sqrt t ht pts hlen hsplit⟩
  · intro hflat
    exact douglasPeucker_flat sqrt t pts hlen hflat

/-- Witness for C4 at concrete points with rational square roots: the
segment `(0,0)–(3,4)` of length 5, the degenerate segment at `(0,0)` with
`Q = (0,3)` at distance 3, and the three-point list
`[(0,0), (1,1), (2,0)]`. -/
theorem douglasPeucker_follows_spec_witness :
    (([⟨5, 5⟩] : List Point).length ≤ 2
      ∧ (0 : ℚ) ≤ 0
      ∧ 2 < ([⟨0, 0⟩, ⟨1, 1⟩, ⟨2, 0⟩] : List Point).length
      ∧ (⟨0, 0⟩ : Point) ≠ ⟨3, 4⟩
      ∧ (0 : ℚ) ≤ 5 ∧ (5 : ℚ) * 5 = segLengthSq ⟨0, 0⟩ ⟨3, 4⟩
      ∧ tableSqrt (segLengthSq ⟨0, 0⟩ ⟨3, 4⟩) = 5
      ∧ (0 : ℚ) ≤ 3 ∧ (3 : ℚ) * 3 = pointDistSq ⟨0, 3⟩ ⟨0, 0⟩
      ∧ tableSqrt (pointDistSq ⟨0, 3⟩ ⟨0, 0⟩) = 3)
    ∧ douglasPeucker tableSqrt 0 [⟨5, 5⟩] = [⟨5, 5⟩]
    ∧ perpendicularDistance tableSqrt ⟨1, 0⟩ ⟨0, 0⟩ ⟨3, 4⟩ =
        2 * specTriangleArea ⟨0, 0⟩ ⟨3, 4⟩ ⟨1, 0⟩ / 5
    ∧ perpendicularDistance tableSqrt ⟨0, 3⟩ ⟨0, 0⟩ ⟨0, 0⟩ = 3 := by
  have h := douglasPeucker_follows_spec tableSqrt 0 [⟨5, 5⟩] [⟨0, 0⟩, ⟨1, 1⟩, ⟨2, 0⟩]
    ⟨1, 0⟩ ⟨0, 0⟩ ⟨3, 4⟩ ⟨0, 3⟩ ⟨0, 0⟩ 5 3
    (by decide) (by norm_num) (by decide) (by decide)
    (by norm_num) (by norm_num [segLengthSq]) (by norm_num [tableSqrt, segLengthSq])
    (by norm_num) (by norm_num [pointDistSq]) (by norm_num [tableSqrt, pointDistSq])
  exact ⟨⟨by decide, by norm_num, by decide, by decide, by norm_num,
    by norm_num [segLengthSq], by norm_num [tableSqrt, segLengthSq], by norm_num,
    by norm_num [pointDistSq], by norm_num [tableSqrt, pointDistSq]⟩,
    h.1, h.2.1, h.2.2.1⟩

end PropSearch
